import Mathlib

/- Verification of the branch-and-bound search core and its collaborators
   (HiGHS repository slice: src/mip/SolveMip.h, src/qpsolver/feasibility_bounded.hpp,
   src/simplex/HighsSimplexAnalysis.cpp).

   Shallow embedding conventions:
   - C++ `double` values are modelled as rationals (ℚ); transcendental library calls
     (`sqrt`, `log`) are abstracted as explicit function parameters, since the claims
     settled here do not depend on their numerical values.
   - C++ `int` is modelled as `Int` (no claim here exercises 32-bit overflow).
   - mutable arrays are modelled as functions `Nat → ℚ` updated with `Function.update`,
     and loops as folds over `List.range`.  -/

namespace HiGHS

/- ===== src/mip/SolveMip.h : node identifiers ===== -/

/-- Mirrors `using NodeIndex = int;`. -/
abbrev NodeIndex := Int

/-- Mirrors `constexpr NodeIndex kNoNodeIndex = -1;`. -/
def kNoNodeIndex : NodeIndex := -1

/-- Mirrors `constexpr NodeIndex kNodeIndexError = -2;`. -/
def kNodeIndexError : NodeIndex := -2

/- ===== src/simplex/HighsSimplexAnalysis.cpp : intLog10 ===== -/

/-- Truncation of a rational toward zero, the semantics of the C++ conversion
from `double` to `int` applied to an in-range value. -/
def truncTowardZero (q : ℚ) : Int := if 0 ≤ q then ⌊q⌋ else ⌈q⌉

/-- Mirrors `HighsSimplexAnalysis::intLog10`.  The C library `log` is abstracted
as the parameter `log`, since the source only applies it to positive arguments
and the claim is about the guard, not the numerics of the logarithm:

    int intLog10V = -99;
    if (v > 0) intLog10V = log(v) / log(10.0);
    return intLog10V;  -/
def intLog10 (log : ℚ → ℚ) (v : ℚ) : Int :=
  if v > 0 then truncTowardZero (log v / log 10) else -99

/- ===== src/simplex/HighsSimplexAnalysis.cpp : switchToDevex ===== -/

/-- Fields of `HighsSimplexAnalysis` read or written by `switchToDevex`. -/
structure SimplexAnalysisState where
  row_ep_density : ℚ
  col_aq_density : ℚ
  row_ap_density : ℚ
  row_DSE_density : ℚ
  AnIterCostlyDseMeasure : ℚ
  AnIterCostlyDseMeasureLimit : ℚ
  AnIterCostlyDseMnDensity : ℚ
  AnIterCostlyDseFq : ℚ
  running_average_multiplier : ℚ
  AnIterNumCostlyDseIt : Int
  simplex_iteration_count : Int
  AnIterIt0 : Int
  AnIterFracNumCostlyDseItbfSw : ℚ
  AnIterFracNumTot_ItBfSw : ℚ
  numTot : Int
  allow_dual_steepest_edge_to_devex_switch : Bool
  average_log_low_dual_steepest_edge_weight_error : ℚ
  average_log_high_dual_steepest_edge_weight_error : ℚ
  dual_steepest_edge_weight_log_error_threshhold : ℚ

/-- Mirrors `HighsSimplexAnalysis::switchToDevex` (HiGHSDEV logging elided):
returns the `switch_to_devex` decision together with the mutated object state. -/
def switchToDevex (s : SimplexAnalysisState) : Bool × SimplexAnalysisState :=
  let den := max (max s.row_ep_density s.col_aq_density) s.row_ap_density
  let measure : ℚ :=
    if den > 0 then (s.row_DSE_density / den) * (s.row_DSE_density / den) else 0
  let s1 := { s with AnIterCostlyDseMeasure := measure }
  let costlyDseIt : Bool :=
    decide (measure > s1.AnIterCostlyDseMeasureLimit) &&
    decide (s1.row_DSE_density > s1.AnIterCostlyDseMnDensity)
  let s2 := { s1 with
    AnIterCostlyDseFq := (1 - s1.running_average_multiplier) * s1.AnIterCostlyDseFq }
  if costlyDseIt then
    let s3 := { s2 with
      AnIterNumCostlyDseIt := s2.AnIterNumCostlyDseIt + 1,
      AnIterCostlyDseFq := s2.AnIterCostlyDseFq + s2.running_average_multiplier * 1 }
    let lcNumIter : Int := s3.simplex_iteration_count - s3.AnIterIt0
    let sw1 : Bool :=
      s3.allow_dual_steepest_edge_to_devex_switch &&
      decide ((s3.AnIterNumCostlyDseIt : ℚ) >
        (lcNumIter : ℚ) * s3.AnIterFracNumCostlyDseItbfSw) &&
      decide ((lcNumIter : ℚ) > s3.AnIterFracNumTot_ItBfSw * (s3.numTot : ℚ))
    if sw1 then (sw1, s3)
    else
      let sw2 : Bool :=
        s3.allow_dual_steepest_edge_to_devex_switch &&
        decide (s3.average_log_low_dual_steepest_edge_weight_error +
          s3.average_log_high_dual_steepest_edge_weight_error >
          s3.dual_steepest_edge_weight_log_error_threshhold)
      (sw2, s3)
  else
    let sw2 : Bool :=
      s2.allow_dual_steepest_edge_to_devex_switch &&
      decide (s2.average_log_low_dual_steepest_edge_weight_error +
        s2.average_log_high_dual_steepest_edge_weight_error >
        s2.dual_steepest_edge_weight_log_error_threshhold)
    (sw2, s2)

/- ===== src/qpsolver/feasibility_bounded.hpp ===== -/

/-- Column-compressed sparse matrix, the shape of `instance.Q.mat`
(`start`, `index`, `value` arrays). -/
structure SparseMatrix where
  start : Nat → Nat
  index : Nat → Nat
  value : Nat → ℚ

/-- The fields of the qpsolver `Instance` read by `computestartingpoint_bounded`:
dimensions, quadratic-term matrix `Q`, linear objective `c`, variable bounds. -/
structure QpInstance where
  num_var : Nat
  num_con : Nat
  Q : SparseMatrix
  c : Nat → ℚ
  var_lo : Nat → ℚ
  var_up : Nat → ℚ

/-- The `BasisStatus` values used by the routine. -/
inductive BasisStatus where
  | ActiveAtLower
  | ActiveAtUpper
deriving DecidableEq, Repr

/-- The qpsolver `QpModelStatus` enumeration (values other than `OPTIMAL` are
interchangeable for this routine, which writes only `OPTIMAL`). -/
inductive QpModelStatus where
  | NOTSET
  | OPTIMAL
  | UNBOUNDED
  | INFEASIBLE
deriving DecidableEq, Repr

/-- The fields of `QpHotstartInformation` written by the routine.  The primal
vector `x0` is kept as its dense value array plus the sparse index list and
nonzero count maintained by the source. -/
structure QpHotstartInformation where
  status : List BasisStatus
  active : List Nat
  inactive : List Nat
  primal : Nat → ℚ
  primalIndex : List Nat
  primalNumNz : Nat

/-- Cholesky factorization loop of `computestartingpoint_bounded` (the `L` array,
zero-initialized by `resize`; `sqrt` abstracts the C library square root):

    for col: for idx in [Q.start[col], Q.start[col+1]):
      row = Q.index[idx]
      if row == col: L[row*n+row] = sqrt(value[idx] - Σ_k L[k n+row]²)
      else: L[row*n+col] = (value[idx] - Σ_k L[k n+col] L[k n+row]) / L[row*n+row]  -/
def choleskyL (sqrt : ℚ → ℚ) (inst : QpInstance) : Nat → ℚ :=
  (List.range inst.num_var).foldl (fun L col =>
    (List.range' (inst.Q.start col) (inst.Q.start (col+1) - inst.Q.start col)).foldl
      (fun L idx =>
        let row := inst.Q.index idx
        if row = col then
          let sum := ((List.range row).map
            (fun k => L (k * inst.num_var + row) * L (k * inst.num_var + row))).sum
          Function.update L (row * inst.num_var + row) (sqrt (inst.Q.value idx - sum))
        else
          let sum := ((List.range row).map
            (fun k => L (k * inst.num_var + col) * L (k * inst.num_var + row))).sum
          Function.update L (row * inst.num_var + col)
            ((inst.Q.value idx - sum) / L (row * inst.num_var + row))) L)
    (fun _ => 0)

/-- Forward-substitution loop (`res` starts as a copy of `instance.c`):

    for r: { for j < r: res[r] -= res[j] * L[j n+r]; res[r] /= L[r n+r]; }  -/
def forwardSolve (inst : QpInstance) (L : Nat → ℚ) : Nat → ℚ :=
  (List.range inst.num_var).foldl (fun res r =>
    let v := res r - ((List.range r).map
      (fun j => res j * L (j * inst.num_var + r))).sum
    Function.update res r (v / L (r * inst.num_var + r))) inst.c

/-- Backward-substitution loop:

    for i = dim-1 down to 0:
      res[i] = (res[i] - Σ_{j>i} res[j] * L[i n+j]) / L[i n+i]  -/
def backwardSolve (inst : QpInstance) (L : Nat → ℚ) (res : Nat → ℚ) : Nat → ℚ :=
  (List.range inst.num_var).reverse.foldl (fun res i =>
    let sum := ((List.range' (i+1) (inst.num_var - (i+1))).map
      (fun j => res j * L (i * inst.num_var + j))).sum
    Function.update res i ((res i - sum) / L (i * inst.num_var + i))) res

/-- Loop state of the projection loop: the mutated `res` vector, the active and
inactive index lists, the `atlower` status list, and the sparse `x0` vector. -/
structure ProjState where
  resv : Nat → ℚ
  initialactive : List Nat
  initialinactive : List Nat
  atlower : List BasisStatus
  x0value : Nat → ℚ
  x0index : List Nat
  x0num_nz : Nat

/-- One iteration of the projection loop of `computestartingpoint_bounded`:

    if (res[i] <= lo[i]) { res[i] = lo[i]; active += i+num_con; atlower += Lower }
    else if (res[i] >= up[i]) { res[i] = up[i]; active += i+num_con; atlower += Upper }
    else inactive += i+num_con;
    if (fabs(res[i]) > 10E-5) { x0.value[i] = res[i]; x0.index[x0.num_nz++] = i; }  -/
def projStep (inst : QpInstance) (s : ProjState) (i : Nat) : ProjState :=
  let s1 :=
    if s.resv i ≤ inst.var_lo i then
      { s with resv := Function.update s.resv i (inst.var_lo i),
               initialactive := s.initialactive ++ [i + inst.num_con],
               atlower := s.atlower ++ [BasisStatus.ActiveAtLower] }
    else if s.resv i ≥ inst.var_up i then
      { s with resv := Function.update s.resv i (inst.var_up i),
               initialactive := s.initialactive ++ [i + inst.num_con],
               atlower := s.atlower ++ [BasisStatus.ActiveAtUpper] }
    else
      { s with initialinactive := s.initialinactive ++ [i + inst.num_con] }
  if |s1.resv i| > 1/10000 then
    { s1 with x0value := Function.update s1.x0value i (s1.resv i),
              x0index := s1.x0index ++ [i],
              x0num_nz := s1.x0num_nz + 1 }
  else s1

/-- The projection loop over all variables, started on the solve result `res`
with empty lists and a zero-initialized `x0`. -/
def projLoop (inst : QpInstance) (res : Nat → ℚ) : ProjState :=
  (List.range inst.num_var).foldl (projStep inst) ⟨res, [], [], [], fun _ => 0, [], 0⟩

/-- Mirrors `computestartingpoint_bounded`.  `statusIn` is the value of the
in/out parameter `modelstatus` at entry; the returned pair is the value of
`modelstatus` at exit together with the filled `result` record.  (`rowact` is a
zero vector `ra` in the source and is omitted; ℚ stands for `double`, and
division by zero yields 0 in ℚ where IEEE doubles give ±inf/NaN — no theorem
below depends on a division by zero in the factorization phase.) -/
def computestartingpoint_bounded (sqrt : ℚ → ℚ) (inst : QpInstance)
    (statusIn : QpModelStatus) : QpModelStatus × QpHotstartInformation :=
  let L := choleskyL sqrt inst
  let res := backwardSolve inst L (forwardSolve inst L)
  let s := projLoop inst res
  let statusOut :=
    if s.initialactive.length = 0 then QpModelStatus.OPTIMAL else statusIn
  (statusOut,
   ⟨s.atlower, s.initialactive, s.initialinactive, s.x0value, s.x0index, s.x0num_nz⟩)

/-- The value that the projection loop leaves in `res[i]`: the unconstrained
solve value clamped into `[var_lo i, var_up i]` by the two-sided test. -/
def projectedValue (inst : QpInstance) (res : Nat → ℚ) (i : Nat) : ℚ :=
  if res i ≤ inst.var_lo i then inst.var_lo i
  else if res i ≥ inst.var_up i then inst.var_up i
  else res i

/-- The unconstrained solve vector fed into the projection loop. -/
def solveResult (sqrt : ℚ → ℚ) (inst : QpInstance) : Nat → ℚ :=
  backwardSolve inst (choleskyL sqrt inst) (forwardSolve inst (choleskyL sqrt inst))

/- ===== src/mip/SolveMip.h : branching (spec-modelled) ===== -/

/-- Effective per-variable bounds of a search node (the materialized
`cow_lower_bound` / `col_upper_bound` information of `Node`). -/
structure Bounds where
  lower : Nat → ℚ
  upper : Nat → ℚ

/-- Modelled from the spec: the left (floor) child produced by the Branching
Selector — `NodeStack::chooseBranchingVariable` and the child creation it
feeds are only declared, not defined, under src/ — "left (floor) child: upper
bound of `v` tightened to `floor(x)`". -/
def branchLeft (b : Bounds) (v : Nat) (x : ℚ) : Bounds :=
  { b with upper := Function.update b.upper v (⌊x⌋ : ℚ) }

/-- Modelled from the spec: the right (ceil) child produced by the Branching
Selector — "right (ceil) child: lower bound of `v` tightened to `ceil(x)`". -/
def branchRight (b : Bounds) (v : Nat) (x : ℚ) : Bounds :=
  { b with lower := Function.update b.lower v (⌈x⌉ : ℚ) }

/-- The feasible interval of bounds `b` for variable `v` at value `t`. -/
def feasibleFor (b : Bounds) (v : Nat) (t : ℚ) : Prop :=
  b.lower v ≤ t ∧ t ≤ b.upper v

/- ===== src/mip/SolveMip.h : branching-variable selection (spec-modelled) ===== -/

/-- Modelled from the spec: the fractional distance of a relaxation value from
the nearest integer ("largest fractional distance from the nearest integer"). -/
def fracDist (x : ℚ) : ℚ := min (x - (⌊x⌋ : ℚ)) ((⌈x⌉ : ℚ) - x)

/-- Modelled from the spec: a variable is a branching candidate when its
bounds are not a singleton (`lower == upper` must be skipped) and its
relaxation value is fractional beyond the tolerance `eps`. -/
def eligibleVar (sol lo up : Nat → ℚ) (eps : ℚ) (v : Nat) : Prop :=
  lo v ≠ up v ∧ fracDist (sol v) > eps

instance (sol lo up : Nat → ℚ) (eps : ℚ) (v : Nat) :
    Decidable (eligibleVar sol lo up eps v) :=
  decidable_of_iff (lo v ≠ up v ∧ fracDist (sol v) > eps) Iff.rfl

/-- Selection preorder: `v` is selected over `w` when its fractional distance
is larger, or equal with `v` having the lower index (the tie-break). -/
def noWorseThan (sol : Nat → ℚ) (v w : Nat) : Prop :=
  fracDist (sol w) < fracDist (sol v) ∨
    (fracDist (sol w) = fracDist (sol v) ∧ v ≤ w)

/-- Modelled from the spec: the accumulator pass of the most-fractional rule,
keeping the best (candidate, distance) pair seen so far and replacing it only
on strictly larger distance or on equal distance with smaller index. -/
def chooseAux (sol lo up : Nat → ℚ) (eps : ℚ) :
    List Nat → Option (Nat × ℚ) → Option (Nat × ℚ)
  | [], best => best
  | v :: rest, best =>
      let d := fracDist (sol v)
      let best' :=
        if eligibleVar sol lo up eps v then
          match best with
          | none => some (v, d)
          | some (w, dw) =>
              if d > dw ∨ (d = dw ∧ v < w) then some (v, d) else some (w, dw)
        else best
      chooseAux sol lo up eps rest best'

/-- Modelled from the spec: `NodeStack::chooseBranchingVariable` (declared in
src/src/mip/SolveMip.h, body not under src/) — among `integer_variables`,
select the variable whose relaxation value has the largest fractional distance
from the nearest integer, ties broken by lowest variable index; when no
candidate remains the lookup fails with `kNodeIndexError`. -/
def chooseBranchingVariable (sol lo up : Nat → ℚ) (eps : ℚ)
    (integer_variables : List Nat) : NodeIndex :=
  match chooseAux sol lo up eps integer_variables none with
  | none => kNodeIndexError
  | some (v, _) => (v : Int)

/-- The selection preorder is transitive. -/
theorem noWorseThan_trans (sol : Nat → ℚ) (a b c : Nat)
    (h1 : noWorseThan sol a b) (h2 : noWorseThan sol b c) :
    noWorseThan sol a c := by
  rcases h1 with h1 | ⟨h1, h1'⟩ <;> rcases h2 with h2 | ⟨h2, h2'⟩
  · exact Or.inl (h2.trans h1)
  · exact Or.inl (h2 ▸ h1)
  · exact Or.inl (lt_of_lt_of_le h2 (le_of_eq h1))
  · exact Or.inr ⟨h2.trans h1, h1'.trans h2'⟩

/-- A rejected replacement means the incumbent is selected over the newcomer. -/
theorem not_taken_noWorseThan (sol : Nat → ℚ) (w a : Nat)
    (h : ¬ (fracDist (sol a) > fracDist (sol w) ∨
            (fracDist (sol a) = fracDist (sol w) ∧ a < w))) :
    noWorseThan sol w a := by
  rcases not_or.mp h with ⟨h1, h2⟩
  rcases lt_or_eq_of_le (not_lt.mp h1) with h3 | h3
  · exact Or.inl h3
  · exact Or.inr ⟨h3, not_lt.mp (fun hc => h2 ⟨h3, hc⟩)⟩

/-- A taken replacement means the newcomer is selected over the incumbent. -/
theorem taken_noWorseThan (sol : Nat → ℚ) (w a : Nat)
    (h : fracDist (sol a) > fracDist (sol w) ∨
         (fracDist (sol a) = fracDist (sol w) ∧ a < w)) :
    noWorseThan sol a w := by
  rcases h with h | ⟨h1, h2⟩
  · exact Or.inl h
  · exact Or.inr ⟨h1.symm, le_of_lt h2⟩

/-- Invariant of the accumulator pass started from an incumbent `w`: it
returns a candidate paired with its own distance that is `w` or an eligible
list element, is selected over `w`, and is selected over every eligible list
element. -/
theorem chooseAux_some (sol lo up : Nat → ℚ) (eps : ℚ) :
    ∀ (l : List Nat) (w : Nat), ∃ v,
      chooseAux sol lo up eps l (some (w, fracDist (sol w))) =
        some (v, fracDist (sol v)) ∧
      (v = w ∨ (v ∈ l ∧ eligibleVar sol lo up eps v)) ∧
      noWorseThan sol v w ∧
      ∀ u ∈ l, eligibleVar sol lo up eps u → noWorseThan sol v u := by
  intro l
  induction l with
  | nil =>
    intro w
    exact ⟨w, rfl, Or.inl rfl, Or.inr ⟨rfl, le_refl w⟩, by simp⟩
  | cons a rest ih =>
    intro w
    by_cases helig : eligibleVar sol lo up eps a
    · by_cases htake : fracDist (sol a) > fracDist (sol w) ∨
          (fracDist (sol a) = fracDist (sol w) ∧ a < w)
      · obtain ⟨v, hv, hmem, hvw, hall⟩ := ih a
        refine ⟨v, ?_, ?_, ?_, ?_⟩
        · simp only [chooseAux, if_pos helig, if_pos htake]
          exact hv
        · rcases hmem with h | ⟨h1, h2⟩
          · exact Or.inr ⟨h ▸ List.mem_cons_self a rest, h ▸ helig⟩
          · exact Or.inr ⟨List.mem_cons_of_mem a h1, h2⟩
        · exact noWorseThan_trans sol v a w hvw (taken_noWorseThan sol w a htake)
        · intro u hu helu
          rcases List.mem_cons.mp hu with h | h
          · exact h ▸ hvw
          · exact hall u h helu
      · obtain ⟨v, hv, hmem, hvw, hall⟩ := ih w
        refine ⟨v, ?_, ?_, hvw, ?_⟩
        · simp only [chooseAux, if_pos helig, if_neg htake]
          exact hv
        · rcases hmem with h | ⟨h1, h2⟩
          · exact Or.inl h
          · exact Or.inr ⟨List.mem_cons_of_mem a h1, h2⟩
        · intro u hu helu
          rcases List.mem_cons.mp hu with h | h
          · exact h ▸ noWorseThan_trans sol v w a hvw
              (not_taken_noWorseThan sol w a htake)
          · exact hall u h helu
    · obtain ⟨v, hv, hmem, hvw, hall⟩ := ih w
      refine ⟨v, ?_, ?_, hvw, ?_⟩
      · simp only [chooseAux, if_neg helig]
        exact hv
      · rcases hmem with h | ⟨h1, h2⟩
        · exact Or.inl h
        · exact Or.inr ⟨List.mem_cons_of_mem a h1, h2⟩
      · intro u hu helu
        rcases List.mem_cons.mp hu with h | h
        · exact absurd (h ▸ helu) helig
        · exact hall u h helu

/-- Started from no incumbent, the accumulator pass returns the best eligible
element of the list whenever one exists. -/
theorem chooseAux_none (sol lo up : Nat → ℚ) (eps : ℚ) :
    ∀ (l : List Nat), (∃ v ∈ l, eligibleVar sol lo up eps v) → ∃ v,
      chooseAux sol lo up eps l none = some (v, fracDist (sol v)) ∧
      v ∈ l ∧ eligibleVar sol lo up eps v ∧
      ∀ u ∈ l, eligibleVar sol lo up eps u → noWorseThan sol v u := by
  intro l
  induction l with
  | nil => rintro ⟨v, hv, -⟩; exact absurd hv (List.not_mem_nil v)
  | cons a rest ih =>
    intro hex
    by_cases helig : eligibleVar sol lo up eps a
    · obtain ⟨v, hv, hmem, hvw, hall⟩ := chooseAux_some sol lo up eps rest a
      refine ⟨v, ?_, ?_, ?_, ?_⟩
      · simp only [chooseAux, if_pos helig]
        exact hv
      · rcases hmem with h | ⟨h1, -⟩
        · exact h ▸ List.mem_cons_self a rest
        · exact List.mem_cons_of_mem a h1
      · rcases hmem with h | ⟨-, h2⟩
        · exact h ▸ helig
        · exact h2
      · intro u hu helu
        rcases List.mem_cons.mp hu with h | h
        · exact h ▸ hvw
        · exact hall u h helu
    · obtain ⟨u, hu, helu⟩ := hex
      have hur : u ∈ rest := by
        rcases List.mem_cons.mp hu with h | h
        · exact absurd (h ▸ helu) helig
        · exact h
      obtain ⟨v, hv, hmem, helv, hall⟩ := ih ⟨u, hur, helu⟩
      refine ⟨v, ?_, List.mem_cons_of_mem a hmem, helv, ?_⟩
      · simp only [chooseAux, if_neg helig]
        exact hv
      · intro z hz helz
        rcases List.mem_cons.mp hz with h | h
        · exact absurd (h ▸ helz) helig
        · exact hall z h helz

/- ===== src/mip/SolveMip.h : node levels (spec-modelled) ===== -/

/-- The identification fields of `struct Node` (`id`, `parent_id`, `level`);
`parent_id` holds `kNoNodeIndex` for the root as in the source. -/
structure MipNode where
  id : Nat
  parent_id : NodeIndex
  level : Nat
deriving DecidableEq, Repr

/-- Modelled from the spec: the store after the Driver creates the root (id 0,
parent `kNoNodeIndex`, level 0) — the creation discipline of nodes is not
under src/ (only the `Node` constructor is declared there). -/
def rootStore : List MipNode := [⟨0, kNoNodeIndex, 0⟩]

/-- Modelled from the spec: creation of a child of node `p` — "each child is
parent.level + 1", with a fresh monotonically-increasing id. -/
def addChild (s : List MipNode) (p : Nat) : List MipNode :=
  match s[p]? with
  | some parent => s ++ [⟨s.length, (p : Int), parent.level + 1⟩]
  | none => s

/-- Stores reachable by creating the root and then children of live nodes. -/
inductive Built : List MipNode → Prop
  | root : Built rootStore
  | child (s : List MipNode) (p : Nat) (hp : p < s.length) (h : Built s) :
      Built (addChild s p)

/-- Ancestor count of node `i`, following parent links with explicit fuel. -/
def ancCount (s : List MipNode) : Nat → Nat → Nat
  | 0, _ => 0
  | fuel+1, i =>
      match s[i]? with
      | some nd =>
          if nd.parent_id < 0 then 0 else ancCount s fuel nd.parent_id.toNat + 1
      | none => 0

/-- The number of ancestors of node `i`: fuel `i` suffices because every
parent index is strictly below its child's index in a built store. -/
def numAncestors (s : List MipNode) (i : Nat) : Nat := ancCount s i i

/-- Parent links of a store are well formed: the root points to
`kNoNodeIndex` and every other node points to an earlier index. -/
def WellParented (s : List MipNode) : Prop :=
  ∀ i nd, s[i]? = some nd →
    (i = 0 ∧ nd.parent_id = kNoNodeIndex) ∨
    (0 ≤ nd.parent_id ∧ nd.parent_id.toNat < i)

/-- Unfolding of `addChild` when the parent lookup succeeds. -/
theorem addChild_eq (s : List MipNode) (p : Nat) (par : MipNode)
    (h : s[p]? = some par) :
    addChild s p = s ++ [(⟨s.length, (p : Int), par.level + 1⟩ : MipNode)] := by
  unfold addChild
  rw [h]

/-- Zero fuel yields ancestor count zero. -/
theorem ancCount_zero (s : List MipNode) (i : Nat) : ancCount s 0 i = 0 := rfl

/-- Unfolding of `ancCount` on a successful lookup. -/
theorem ancCount_succ_some (s : List MipNode) (fuel i : Nat) (nd : MipNode)
    (h : s[i]? = some nd) :
    ancCount s (fuel+1) i =
      if nd.parent_id < 0 then 0 else ancCount s fuel nd.parent_id.toNat + 1 := by
  show (match s[i]? with
    | some nd2 =>
        if nd2.parent_id < 0 then 0 else ancCount s fuel nd2.parent_id.toNat + 1
    | none => 0) =
    if nd.parent_id < 0 then 0 else ancCount s fuel nd.parent_id.toNat + 1
  rw [h]

/-- Unfolding of `ancCount` on a failed lookup. -/
theorem ancCount_succ_none (s : List MipNode) (fuel i : Nat) (h : s[i]? = none) :
    ancCount s (fuel+1) i = 0 := by
  show (match s[i]? with
    | some nd2 =>
        if nd2.parent_id < 0 then 0 else ancCount s fuel nd2.parent_id.toNat + 1
    | none => 0) = 0
  rw [h]

/-- Every built store is well parented. -/
theorem built_wellParented (s : List MipNode) (hs : Built s) : WellParented s := by
  induction hs with
  | root =>
    intro i nd hnd
    cases i with
    | zero =>
      left
      refine ⟨rfl, ?_⟩
      simp only [rootStore] at hnd
      cases hnd
      rfl
    | succ j => simp [rootStore] at hnd
  | child s p hp h ih =>
    intro i nd hnd
    have hps : s[p]? = some s[p] := List.getElem?_eq_getElem hp
    rw [addChild_eq s p s[p] hps] at hnd
    by_cases hi : i < s.length
    · rw [List.getElem?_append_left hi] at hnd
      exact ih i nd hnd
    · by_cases hie : i = s.length
      · subst hie
        rw [List.getElem?_concat_length] at hnd
        cases hnd
        right
        constructor
        · exact Int.natCast_nonneg p
        · simpa using hp
      · have hlen : (s ++ [(⟨s.length, (p : Int), s[p].level + 1⟩ : MipNode)]).length ≤ i := by
          simp only [List.length_append, List.length_cons, List.length_nil]
          omega
        rw [List.getElem?_eq_none hlen] at hnd
        cases hnd

/-- In a well-parented store the ancestor count is independent of the fuel as
soon as the fuel reaches the node index. -/
theorem ancCount_fuel_ge (s : List MipNode) (hW : WellParented s) :
    ∀ i f1 f2, i ≤ f1 → i ≤ f2 → ancCount s f1 i = ancCount s f2 i := by
  intro i
  induction i using Nat.strong_induction_on with
  | _ i ih =>
    intro f1 f2 h1 h2
    match f1, f2 with
    | 0, 0 => rfl
    | 0, g2+1 =>
      have hi : i = 0 := Nat.le_zero.mp h1
      subst hi
      rw [ancCount_zero]
      cases hnd : s[0]? with
      | none => rw [ancCount_succ_none s g2 0 hnd]
      | some nd =>
        rw [ancCount_succ_some s g2 0 nd hnd]
        rcases hW 0 nd hnd with ⟨-, hpar⟩ | ⟨-, hlt⟩
        · rw [hpar]
          simp [kNoNodeIndex]
        · omega
    | g1+1, 0 =>
      have hi : i = 0 := Nat.le_zero.mp h2
      subst hi
      rw [ancCount_zero]
      cases hnd : s[0]? with
      | none => rw [ancCount_succ_none s g1 0 hnd]
      | some nd =>
        rw [ancCount_succ_some s g1 0 nd hnd]
        rcases hW 0 nd hnd with ⟨-, hpar⟩ | ⟨-, hlt⟩
        · rw [hpar]
          simp [kNoNodeIndex]
        · omega
    | g1+1, g2+1 =>
      cases hnd : s[i]? with
      | none => rw [ancCount_succ_none s g1 i hnd, ancCount_succ_none s g2 i hnd]
      | some nd =>
        rw [ancCount_succ_some s g1 i nd hnd, ancCount_succ_some s g2 i nd hnd]
        rcases hW i nd hnd with ⟨hi0, hpar⟩ | ⟨hge, hlt⟩
        · rw [hpar]
          simp [kNoNodeIndex]
        · have hneg : ¬ nd.parent_id < 0 := not_lt.mpr hge
          rw [if_neg hneg, if_neg hneg]
          have := ih nd.parent_id.toNat hlt g1 g2 (by omega) (by omega)
          omega

/-- Appending nodes to a well-parented store does not change the ancestor
count of the existing nodes. -/
theorem ancCount_append (s t : List MipNode) (hW : WellParented s) :
    ∀ fuel i, i < s.length → ancCount (s ++ t) fuel i = ancCount s fuel i := by
  intro fuel
  induction fuel with
  | zero => intro i _; rfl
  | succ g ih =>
    intro i hi
    have hnd : s[i]? = some s[i] := List.getElem?_eq_getElem hi
    have hnd2 : (s ++ t)[i]? = some s[i] := by
      rw [List.getElem?_append_left hi, hnd]
    rw [ancCount_succ_some (s ++ t) g i s[i] hnd2, ancCount_succ_some s g i s[i] hnd]
    rcases hW i s[i] hnd with ⟨-, hpar⟩ | ⟨hge, hlt⟩
    · rw [hpar]
      simp [kNoNodeIndex]
    · have hneg : ¬ (s[i]).parent_id < 0 := not_lt.mpr hge
      rw [if_neg hneg, if_neg hneg, ih (s[i]).parent_id.toNat (by omega)]

/-- In every built store, each node level equals its number of ancestors. -/
theorem built_level_eq_numAncestors (s : List MipNode) (hs : Built s) :
    ∀ i nd, s[i]? = some nd → nd.level = numAncestors s i := by
  induction hs with
  | root =>
    intro i nd hnd
    cases i with
    | zero =>
      simp only [rootStore] at hnd
      cases hnd
      rfl
    | succ j => simp [rootStore] at hnd
  | child s p hp h ih =>
    have hW : WellParented s := built_wellParented s h
    have hW2 : WellParented (addChild s p) :=
      built_wellParented (addChild s p) (Built.child s p hp h)
    have hps : s[p]? = some s[p] := List.getElem?_eq_getElem hp
    have hadd : addChild s p =
        s ++ [(⟨s.length, (p : Int), s[p].level + 1⟩ : MipNode)] :=
      addChild_eq s p s[p] hps
    intro i nd hnd
    rw [hadd] at hnd
    by_cases hi : i < s.length
    · rw [List.getElem?_append_left hi] at hnd
      rw [ih i nd hnd]
      unfold numAncestors
      rw [hadd]
      exact (ancCount_append s _ hW i i hi).symm
    · by_cases hie : i = s.length
      · subst hie
        rw [List.getElem?_concat_length] at hnd
        cases hnd
        obtain ⟨m, hm⟩ : ∃ m, s.length = m + 1 := ⟨s.length - 1, by omega⟩
        have hnew : (addChild s p)[s.length]? =
            some (⟨s.length, (p : Int), s[p].level + 1⟩ : MipNode) := by
          rw [hadd]
          exact List.getElem?_concat_length ..
        have hstep : numAncestors (addChild s p) s.length =
            ancCount (addChild s p) m p + 1 := by
          unfold numAncestors
          rw [hm] at hnew ⊢
          rw [ancCount_succ_some (addChild s p) m (m+1) _ hnew]
          have hneg : ¬ ((⟨m + 1, (p : Int), s[p].level + 1⟩ : MipNode).parent_id < 0) :=
            not_lt.mpr (Int.natCast_nonneg p)
          rw [if_neg hneg]
          rfl
        rw [hstep]
        have hfe : ancCount (addChild s p) m p = numAncestors (addChild s p) p :=
          ancCount_fuel_ge (addChild s p) hW2 p m p (by omega) (le_refl p)
        have hpres : numAncestors (addChild s p) p = numAncestors s p := by
          unfold numAncestors
          rw [hadd]
          exact ancCount_append s _ hW p p hp
        rw [hfe, hpres, ← ih p s[p] hps]
      · have hlen : (s ++ [(⟨s.length, (p : Int), s[p].level + 1⟩ : MipNode)]).length ≤ i := by
          simp only [List.length_append, List.length_cons, List.length_nil]
          omega
        rw [List.getElem?_eq_none hlen] at hnd
        cases hnd

/- ===== Lemmas about the projection loop ===== -/

/-- Each projection-loop iteration appends exactly one entry to the active or
the inactive list (never both, never neither). -/
theorem projStep_counts (inst : QpInstance) (s : ProjState) (i : Nat) :
    (projStep inst s i).initialactive.length +
      (projStep inst s i).initialinactive.length =
    s.initialactive.length + s.initialinactive.length + 1 := by
  simp only [projStep]
  split_ifs <;> simp <;> omega

/-- Over any index list, the projection loop grows the active and inactive
lists by exactly the number of iterations. -/
theorem foldl_projStep_counts (inst : QpInstance) :
    ∀ (l : List Nat) (s : ProjState),
      (l.foldl (projStep inst) s).initialactive.length +
        (l.foldl (projStep inst) s).initialinactive.length =
      s.initialactive.length + s.initialinactive.length + l.length := by
  intro l
  induction l with
  | nil => intro s; simp
  | cons j t ih =>
    intro s
    have h := projStep_counts inst s j
    simp only [List.foldl_cons, List.length_cons]
    rw [ih (projStep inst s j)]
    omega

/-- An iteration at index `j` leaves `res[i]` and `x0.value[i]` unchanged for
every `i ≠ j`. -/
theorem projStep_untouched (inst : QpInstance) (s : ProjState) (j i : Nat)
    (h : i ≠ j) :
    (projStep inst s j).resv i = s.resv i ∧
      (projStep inst s j).x0value i = s.x0value i := by
  simp only [projStep]
  split_ifs <;> simp [Function.update_noteq h]

/-- Folding the projection loop over a list not containing `i` leaves `res[i]`
and `x0.value[i]` unchanged. -/
theorem foldl_projStep_untouched (inst : QpInstance) (i : Nat) :
    ∀ (l : List Nat) (s : ProjState), i ∉ l →
      (l.foldl (projStep inst) s).resv i = s.resv i ∧
        (l.foldl (projStep inst) s).x0value i = s.x0value i := by
  intro l
  induction l with
  | nil => intro s _; exact ⟨rfl, rfl⟩
  | cons j t ih =>
    intro s hmem
    have hij : i ≠ j := fun hc => hmem (hc ▸ List.mem_cons_self j t)
    have ht : i ∉ t := fun hc => hmem (List.mem_cons_of_mem j hc)
    have hs := projStep_untouched inst s j i hij
    simp only [List.foldl_cons]
    rw [(ih (projStep inst s j) ht).1, (ih (projStep inst s j) ht).2, hs.1, hs.2]
    exact ⟨rfl, rfl⟩

/-- The iteration at index `i` clamps `res[i]` into the bound interval and
stores it in `x0` exactly when its magnitude exceeds the `10E-5` threshold. -/
theorem projStep_at (inst : QpInstance) (s : ProjState) (i : Nat) :
    (projStep inst s i).resv i = projectedValue inst s.resv i ∧
      (projStep inst s i).x0value i =
        (if |projectedValue inst s.resv i| > 1/10000
         then projectedValue inst s.resv i else s.x0value i) := by
  simp only [projStep, projectedValue, Function.update_same]
  split_ifs <;> simp_all [Function.update_same] <;> linarith

/-- Pointwise description of the primal vector built by the projection loop:
position `i < num_var` holds the clamped value when its magnitude exceeds
`10E-5` and the initial zero otherwise. -/
theorem projLoop_x0value (inst : QpInstance) (res : Nat → ℚ) (i : Nat)
    (hi : i < inst.num_var) :
    (projLoop inst res).x0value i =
      (if |projectedValue inst res i| > 1/10000
       then projectedValue inst res i else 0) := by
  have hsplit : List.range inst.num_var =
      List.range (i+1) ++ (List.range (inst.num_var - (i+1))).map ((i+1) + ·) := by
    have h1 : inst.num_var = (i+1) + (inst.num_var - (i+1)) := by omega
    calc List.range inst.num_var
        = List.range ((i+1) + (inst.num_var - (i+1))) := by rw [← h1]
      _ = List.range (i+1) ++ (List.range (inst.num_var - (i+1))).map ((i+1) + ·) :=
          List.range_add (i+1) (inst.num_var - (i+1))
  have hsucc : List.range (i+1) = List.range i ++ [i] := List.range_succ i
  set init : ProjState := ⟨res, [], [], [], fun _ => 0, [], 0⟩ with hinit
  have hpre : i ∉ List.range i := by simp
  set s1 := (List.range i).foldl (projStep inst) init with hs1
  have h1 := foldl_projStep_untouched inst i (List.range i) init hpre
  have hstep := projStep_at inst s1 i
  have hsuf : i ∉ (List.range (inst.num_var - (i+1))).map ((i+1) + ·) := by
    intro hc
    rcases List.mem_map.mp hc with ⟨m, _, hm⟩
    omega
  have h2 := foldl_projStep_untouched inst i
    ((List.range (inst.num_var - (i+1))).map ((i+1) + ·)) (projStep inst s1 i) hsuf
  have hresv : s1.resv i = res i := by rw [hs1]; exact h1.1
  have hval : projectedValue inst s1.resv i = projectedValue inst res i := by
    simp only [projectedValue, hresv]
  calc (projLoop inst res).x0value i
      = (projStep inst s1 i).x0value i := by
        simp only [projLoop, hsplit, List.foldl_append, hsucc, ← hs1]
        exact h2.2
    _ = (if |projectedValue inst res i| > 1/10000
         then projectedValue inst res i else 0) := by
        rw [hstep.2, hval, h1.2]

/-- The clamped value lies in the bound interval whenever the interval is
non-empty. -/
theorem projectedValue_mem (inst : QpInstance) (res : Nat → ℚ) (i : Nat)
    (h : inst.var_lo i ≤ inst.var_up i) :
    inst.var_lo i ≤ projectedValue inst res i ∧
      projectedValue inst res i ≤ inst.var_up i := by
  simp only [projectedValue]
  split_ifs with h1 h2
  · exact ⟨le_refl _, h⟩
  · exact ⟨h, le_refl _⟩
  · exact ⟨le_of_lt (not_le.mp h1), le_of_lt (not_le.mp (fun hc => h2 hc))⟩

/- ===== A concrete bound-only QP instance ===== -/

/-- One variable, no constraints, `Q = [[1]]`, `c = [5]`, bounds
`[1/100000, 1/20000]` (a non-empty interval of magnitude below the `10E-5`
sparsity threshold of the projection loop). -/
def exQpInstance : QpInstance where
  num_var := 1
  num_con := 0
  Q := ⟨fun j => if j = 0 then 0 else 1, fun _ => 0, fun _ => 1⟩
  c := fun _ => 5
  var_lo := fun _ => 1/100000
  var_up := fun _ => 1/20000

/-- Running the routine on `exQpInstance` (with the exact square root on the
only perfect square it is applied to): the unconstrained solve value 5 is
clamped to the upper bound `1/20000`, whose magnitude is below the sparsity
threshold, so the returned primal value is 0; variable 0 is active at its
upper bound; the exit status is the entry status. -/
theorem exQpInstance_run (st : QpModelStatus) :
    (computestartingpoint_bounded (fun q => q) exQpInstance st).2.primal 0 = 0 ∧
    (computestartingpoint_bounded (fun q => q) exQpInstance st).2.active = [0] ∧
    (computestartingpoint_bounded (fun q => q) exQpInstance st).1 = st := by
  have hrange : List.range 1 = [0] := rfl
  have hrange' : List.range' 0 1 = [0] := rfl
  have hn : exQpInstance.num_var = 1 := rfl
  have hcon : exQpInstance.num_con = 0 := rfl
  have hcc : ∀ i, exQpInstance.c i = 5 := fun _ => rfl
  have hlo : ∀ i, exQpInstance.var_lo i = 1/100000 := fun _ => rfl
  have hup : ∀ i, exQpInstance.var_up i = 1/20000 := fun _ => rfl
  have hQs : ∀ j, exQpInstance.Q.start j = (if j = 0 then 0 else 1) := fun _ => rfl
  have hQi : ∀ k, exQpInstance.Q.index k = 0 := fun _ => rfl
  have hQv : ∀ k, exQpInstance.Q.value k = 1 := fun _ => rfl
  have hL : choleskyL (fun q => q) exQpInstance =
      Function.update (fun _ => 0) 0 1 := by
    simp only [choleskyL, hn, hQs, hQi, hQv, hrange, List.foldl_cons, List.foldl_nil]
    norm_num [hrange']
  have hres : solveResult (fun q => q) exQpInstance 0 = 5 := by
    simp only [solveResult, hL, forwardSolve, backwardSolve, hn, hcc, hrange]
    norm_num [Function.update_same, hcc]
  have hfold : backwardSolve exQpInstance (choleskyL (fun q => q) exQpInstance)
      (forwardSolve exQpInstance (choleskyL (fun q => q) exQpInstance)) =
      solveResult (fun q => q) exQpInstance := rfl
  have hloop : projLoop exQpInstance (solveResult (fun q => q) exQpInstance) =
      projStep exQpInstance
        ⟨solveResult (fun q => q) exQpInstance, [], [], [], fun _ => 0, [], 0⟩ 0 := by
    simp only [projLoop, hn, hrange, List.foldl_cons, List.foldl_nil]
  have hstep : projStep exQpInstance
      ⟨solveResult (fun q => q) exQpInstance, [], [], [], fun _ => 0, [], 0⟩ 0 =
      { resv := Function.update (solveResult (fun q => q) exQpInstance) 0 (1/20000),
        initialactive := [0], initialinactive := [],
        atlower := [BasisStatus.ActiveAtUpper],
        x0value := fun _ => 0, x0index := [], x0num_nz := 0 } := by
    have habs : |(1/20000 : ℚ)| = 1/20000 := abs_of_pos (by norm_num)
    simp only [projStep, hres, hlo, hup, hcon]
    norm_num [Function.update_same, habs]
  refine ⟨?_, ?_, ?_⟩ <;>
    simp only [computestartingpoint_bounded, hfold, hloop, hstep] <;> norm_num

/- ===== Theorems ===== -/

/-- C8: the projection loop classifies every variable index into exactly one
of the active or the inactive set, so the source assertion
`initialactive.size() + initialinactive.size() == num_var` holds on every
execution that reaches it. -/
theorem c8_active_inactive_partition (sqrt : ℚ → ℚ) (inst : QpInstance)
    (statusIn : QpModelStatus) :
    (computestartingpoint_bounded sqrt inst statusIn).2.active.length +
      (computestartingpoint_bounded sqrt inst statusIn).2.inactive.length =
    inst.num_var := by
  simp only [computestartingpoint_bounded, projLoop]
  rw [foldl_projStep_counts]
  simp

/-- C2 counterexample: it is not true that for every bound-only instance with
`var_lo ≤ var_up` the returned primal point is within the bounds; at
`exQpInstance` the primal value of variable 0 is 0, strictly below its lower
bound `1/100000`, because the clamped value `1/20000` falls under the `10E-5`
sparsity threshold and is stored as zero. -/
theorem c2_primal_feasibility_counterexample :
    ¬ (∀ (sqrt : ℚ → ℚ) (inst : QpInstance) (statusIn : QpModelStatus),
        (∀ i, i < inst.num_var → inst.var_lo i ≤ inst.var_up i) →
        ∀ i, i < inst.num_var →
          inst.var_lo i ≤ (computestartingpoint_bounded sqrt inst statusIn).2.primal i ∧
          (computestartingpoint_bounded sqrt inst statusIn).2.primal i ≤
            inst.var_up i) := by
  intro h
  have hb : ∀ i, i < exQpInstance.num_var →
      exQpInstance.var_lo i ≤ exQpInstance.var_up i := by
    intro i _
    norm_num [exQpInstance]
  have h0 := (h (fun q => q) exQpInstance QpModelStatus.NOTSET hb 0
    (by norm_num [exQpInstance])).1
  rw [(exQpInstance_run QpModelStatus.NOTSET).1] at h0
  norm_num [exQpInstance] at h0

/-- C2 amended: for every bound-only instance with `var_lo ≤ var_up`, each
returned primal value is either within its bounds, or is exactly 0 because the
bound-clamped solve value has magnitude at most the `10E-5` sparsity threshold
(the source stores only entries exceeding that threshold in the sparse `x0`). -/
theorem c2_primal_feasibility_amended (sqrt : ℚ → ℚ) (inst : QpInstance)
    (statusIn : QpModelStatus)
    (hb : ∀ i, i < inst.num_var → inst.var_lo i ≤ inst.var_up i) :
    ∀ i, i < inst.num_var →
      (inst.var_lo i ≤ (computestartingpoint_bounded sqrt inst statusIn).2.primal i ∧
        (computestartingpoint_bounded sqrt inst statusIn).2.primal i ≤ inst.var_up i) ∨
      ((computestartingpoint_bounded sqrt inst statusIn).2.primal i = 0 ∧
        |projectedValue inst (solveResult sqrt inst) i| ≤ 1/10000) := by
  intro i hi
  have hpt : (computestartingpoint_bounded sqrt inst statusIn).2.primal i =
      (if |projectedValue inst (solveResult sqrt inst) i| > 1/10000
       then projectedValue inst (solveResult sqrt inst) i else 0) := by
    simp only [computestartingpoint_bounded]
    exact projLoop_x0value inst (solveResult sqrt inst) i hi
  rw [hpt]
  by_cases hc : |projectedValue inst (solveResult sqrt inst) i| > 1/10000
  · left
    rw [if_pos hc]
    exact projectedValue_mem inst (solveResult sqrt inst) i (hb i hi)
  · right
    rw [if_neg hc]
    exact ⟨rfl, not_lt.mp hc⟩

/-- Witness for the amended C2 at `exQpInstance`, variable 0: the bound
hypothesis holds and the returned value satisfies the disjunction. -/
theorem c2_primal_feasibility_amended_witness :
    (∀ i, i < exQpInstance.num_var →
      exQpInstance.var_lo i ≤ exQpInstance.var_up i) ∧
    ((exQpInstance.var_lo 0 ≤
        (computestartingpoint_bounded (fun q => q) exQpInstance
          QpModelStatus.NOTSET).2.primal 0 ∧
      (computestartingpoint_bounded (fun q => q) exQpInstance
          QpModelStatus.NOTSET).2.primal 0 ≤ exQpInstance.var_up 0) ∨
     ((computestartingpoint_bounded (fun q => q) exQpInstance
          QpModelStatus.NOTSET).2.primal 0 = 0 ∧
      |projectedValue exQpInstance
          (solveResult (fun q => q) exQpInstance) 0| ≤ 1/10000)) :=
  ⟨fun i _ => by norm_num [exQpInstance],
   c2_primal_feasibility_amended (fun q => q) exQpInstance QpModelStatus.NOTSET
     (fun i _ => by norm_num [exQpInstance]) 0 (by norm_num [exQpInstance])⟩

/-- C4 counterexample: the claimed equivalence "modelstatus equals OPTIMAL
after the call iff no variable bound is active" fails, because `modelstatus`
is an in/out parameter that the routine only ever sets (to OPTIMAL): entering
with `modelstatus = OPTIMAL` on `exQpInstance` leaves it OPTIMAL even though
variable 0 is active at its upper bound. -/
theorem c4_optimal_status_counterexample :
    ¬ (∀ (sqrt : ℚ → ℚ) (inst : QpInstance) (statusIn : QpModelStatus),
        ((computestartingpoint_bounded sqrt inst statusIn).1 = QpModelStatus.OPTIMAL ↔
         (computestartingpoint_bounded sqrt inst statusIn).2.active = [])) := by
  intro h
  have hrun := exQpInstance_run QpModelStatus.OPTIMAL
  have h0 := (h (fun q => q) exQpInstance QpModelStatus.OPTIMAL).mp hrun.2.2
  rw [hrun.2.1] at h0
  exact List.cons_ne_nil 0 [] h0

/-- C4 amended: provided the entry value of the in/out parameter `modelstatus`
is not already OPTIMAL, the exit value equals OPTIMAL if and only if no
variable is active at a bound at the returned point (the routine sets
`modelstatus` to OPTIMAL exactly when the active set is empty and leaves it
untouched otherwise). -/
theorem c4_optimal_status_amended (sqrt : ℚ → ℚ) (inst : QpInstance)
    (statusIn : QpModelStatus) (h : statusIn ≠ QpModelStatus.OPTIMAL) :
    ((computestartingpoint_bounded sqrt inst statusIn).1 = QpModelStatus.OPTIMAL ↔
     (computestartingpoint_bounded sqrt inst statusIn).2.active = []) := by
  have hfold : backwardSolve inst (choleskyL sqrt inst)
      (forwardSolve inst (choleskyL sqrt inst)) = solveResult sqrt inst := rfl
  simp only [computestartingpoint_bounded, hfold]
  constructor
  · intro hs
    by_cases hc : (projLoop inst (solveResult sqrt inst)).initialactive.length = 0
    · exact List.length_eq_zero.mp hc
    · rw [if_neg hc] at hs
      exact absurd hs h
  · intro hs
    rw [if_pos]
    rw [hs]
    rfl

/-- Witness for the amended C4 at `exQpInstance` with non-OPTIMAL entry
status. -/
theorem c4_optimal_status_amended_witness :
    QpModelStatus.NOTSET ≠ QpModelStatus.OPTIMAL ∧
    ((computestartingpoint_bounded (fun q => q) exQpInstance
        QpModelStatus.NOTSET).1 = QpModelStatus.OPTIMAL ↔
     (computestartingpoint_bounded (fun q => q) exQpInstance
        QpModelStatus.NOTSET).2.active = []) :=
  ⟨by decide,
   c4_optimal_status_amended (fun q => q) exQpInstance QpModelStatus.NOTSET
     (by decide)⟩

/-- C6: the node-identifier space uses two distinct sentinel values: `kNoNodeIndex`
equals -1 ("no node") and `kNodeIndexError` equals -2 (failed lookup), so absence
and error are distinguishable by callers. -/
theorem c6_sentinel_values :
    kNoNodeIndex = -1 ∧ kNodeIndexError = -2 ∧ kNoNodeIndex ≠ kNodeIndexError := by
  refine ⟨rfl, rfl, ?_⟩
  decide

/-- C10: `intLog10` is total: for every input `v ≤ 0` it returns -99 without
evaluating the logarithm (the result does not depend on the `log` parameter),
and for every `v > 0` it returns the integer truncation of `log v / log 10`. -/
theorem c10_intLog10_total (log log' : ℚ → ℚ) (v : ℚ) :
    (v ≤ 0 → intLog10 log v = -99 ∧ intLog10 log v = intLog10 log' v) ∧
    (0 < v → intLog10 log v = truncTowardZero (log v / log 10)) := by
  constructor
  · intro h
    have hv : ¬ v > 0 := not_lt.mpr h
    simp [intLog10, hv]
  · intro h
    simp [intLog10, h]

/-- Witness for C10 at concrete inputs: `v = -1` returns -99 and `v = 4` returns
the truncation of the abstracted log ratio (`log := id` here). -/
theorem c10_intLog10_total_witness :
    intLog10 (fun q => q) (-1) = -99 ∧
    intLog10 (fun q => q) 4 = truncTowardZero ((4 : ℚ) / 10) :=
  ⟨((c10_intLog10_total (fun q => q) (fun q => q) (-1)).1 (by norm_num)).1,
   (c10_intLog10_total (fun q => q) (fun q => q) 4).2 (by norm_num)⟩

/-- C9: `switchToDevex` returns true only if the
`allow_dual_steepest_edge_to_devex_switch` flag is set: whatever the densities,
iteration counts and weight-error averages, a false flag forces a false return. -/
theorem c9_no_switch_without_flag (s : SimplexAnalysisState)
    (h : s.allow_dual_steepest_edge_to_devex_switch = false) :
    (switchToDevex s).1 = false := by
  simp only [switchToDevex]
  split <;> simp [h] <;> split <;> rfl

/-- A concrete analysis state with the Devex-switch flag cleared. -/
def exAnalysisState : SimplexAnalysisState where
  row_ep_density := 1
  col_aq_density := 1
  row_ap_density := 1
  row_DSE_density := 1
  AnIterCostlyDseMeasure := 0
  AnIterCostlyDseMeasureLimit := 0
  AnIterCostlyDseMnDensity := 0
  AnIterCostlyDseFq := 0
  running_average_multiplier := 1/20
  AnIterNumCostlyDseIt := 100
  simplex_iteration_count := 200
  AnIterIt0 := 0
  AnIterFracNumCostlyDseItbfSw := 1/100
  AnIterFracNumTot_ItBfSw := 1/100
  numTot := 10
  allow_dual_steepest_edge_to_devex_switch := false
  average_log_low_dual_steepest_edge_weight_error := 100
  average_log_high_dual_steepest_edge_weight_error := 100
  dual_steepest_edge_weight_log_error_threshhold := 0

/-- Witness for C9: at a concrete state whose other fields would all favour
switching, the cleared flag still forces a false return. -/
theorem c9_no_switch_without_flag_witness :
    exAnalysisState.allow_dual_steepest_edge_to_devex_switch = false ∧
    (switchToDevex exAnalysisState).1 = false :=
  ⟨rfl, c9_no_switch_without_flag exAnalysisState rfl⟩

/-- Fractionality of `x` (its floor differs from it) places `x` strictly
between its floor and its ceiling. -/
theorem floor_lt_lt_ceil (x : ℚ) (hfrac : (⌊x⌋ : ℚ) ≠ x) :
    (⌊x⌋ : ℚ) < x ∧ x < (⌈x⌉ : ℚ) := by
  have h1 : (⌊x⌋ : ℚ) < x := lt_of_le_of_ne (Int.floor_le x) hfrac
  refine ⟨h1, ?_⟩
  rcases lt_or_eq_of_le (Int.le_ceil x) with h | h
  · exact h
  · exfalso
    apply hfrac
    have : x = ((⌈x⌉ : ℤ) : ℚ) := h
    rw [this, Int.floor_intCast]

/-- C1: a branch pair produced from fractional value `x` of variable `v` has
`left.upper v = ⌊x⌋` and `right.lower v = ⌈x⌉`; the children's feasible
intervals for `v` are disjoint, and their union is exactly the parent's
feasible interval minus the open interval `(⌊x⌋, ⌈x⌉)`. -/
theorem c1_branch_pair_bounds (b : Bounds) (v : Nat) (x : ℚ)
    (hlo : b.lower v ≤ x) (hup : x ≤ b.upper v) (hfrac : (⌊x⌋ : ℚ) ≠ x) :
    (branchLeft b v x).upper v = (⌊x⌋ : ℚ) ∧
    (branchRight b v x).lower v = (⌈x⌉ : ℚ) ∧
    (∀ t, ¬ (feasibleFor (branchLeft b v x) v t ∧
             feasibleFor (branchRight b v x) v t)) ∧
    (∀ t, (feasibleFor (branchLeft b v x) v t ∨
           feasibleFor (branchRight b v x) v t) ↔
          (feasibleFor b v t ∧ ¬ ((⌊x⌋ : ℚ) < t ∧ t < (⌈x⌉ : ℚ)))) := by
  obtain ⟨hfl, hcl⟩ := floor_lt_lt_ceil x hfrac
  simp only [branchLeft, branchRight, feasibleFor, Function.update_same]
  refine ⟨trivial, trivial, ?_, ?_⟩
  · rintro t ⟨⟨-, h1⟩, h2, -⟩
    linarith
  · intro t
    constructor
    · rintro (⟨h1, h2⟩ | ⟨h1, h2⟩)
      · exact ⟨⟨h1, by linarith⟩, fun hc => by linarith [hc.1]⟩
      · exact ⟨⟨by linarith, h2⟩, fun hc => by linarith [hc.2]⟩
    · rintro ⟨⟨h1, h2⟩, hout⟩
      rcases not_and_or.mp hout with h | h
      · exact Or.inl ⟨h1, not_lt.mp h⟩
      · exact Or.inr ⟨not_lt.mp h, h2⟩

/-- The root bounds of the spec scenario: every variable ranges over [0, 5]. -/
def exRootBounds : Bounds where
  lower := fun _ => 0
  upper := fun _ => 5

/-- Witness for C1 at the spec scenario (root bounds [0,5], relaxation value
2.7): the hypotheses hold, the theorem applies, and concretely the left child
gets interval [0,2] and the right child [3,5] for the branched variable. -/
theorem c1_branch_pair_bounds_witness :
    (exRootBounds.lower 0 ≤ (27/10 : ℚ) ∧ (27/10 : ℚ) ≤ exRootBounds.upper 0 ∧
      (⌊(27/10 : ℚ)⌋ : ℚ) ≠ 27/10) ∧
    ((branchLeft exRootBounds 0 (27/10)).upper 0 = (⌊(27/10 : ℚ)⌋ : ℚ) ∧
     (branchRight exRootBounds 0 (27/10)).lower 0 = (⌈(27/10 : ℚ)⌉ : ℚ) ∧
     (∀ t, ¬ (feasibleFor (branchLeft exRootBounds 0 (27/10)) 0 t ∧
              feasibleFor (branchRight exRootBounds 0 (27/10)) 0 t)) ∧
     (∀ t, (feasibleFor (branchLeft exRootBounds 0 (27/10)) 0 t ∨
            feasibleFor (branchRight exRootBounds 0 (27/10)) 0 t) ↔
           (feasibleFor exRootBounds 0 t ∧
            ¬ ((⌊(27/10 : ℚ)⌋ : ℚ) < t ∧ t < (⌈(27/10 : ℚ)⌉ : ℚ))))) ∧
    ((branchLeft exRootBounds 0 (27/10)).lower 0 = 0 ∧
     (branchLeft exRootBounds 0 (27/10)).upper 0 = 2 ∧
     (branchRight exRootBounds 0 (27/10)).lower 0 = 3 ∧
     (branchRight exRootBounds 0 (27/10)).upper 0 = 5) :=
  ⟨⟨by norm_num [exRootBounds], by norm_num [exRootBounds], by norm_num⟩,
   c1_branch_pair_bounds exRootBounds 0 (27/10)
     (by norm_num [exRootBounds]) (by norm_num [exRootBounds]) (by norm_num),
   by
     have hcl : ⌈(27/10 : ℚ)⌉ = 3 := by
       rw [Int.ceil_eq_iff] <;> norm_num
     refine ⟨?_, ?_, ?_, ?_⟩ <;>
       simp only [branchLeft, branchRight, exRootBounds, Function.update_same, hcl] <;>
       norm_num⟩

/-- C5: each child of a branch pair has a non-empty bound delta that strictly
tightens exactly one bound of the branched variable relative to the parent's
effective bounds and loosens nothing: the left child changes only `upper v`,
strictly downward, and the right child changes only `lower v`, strictly
upward. -/
theorem c5_children_strictly_tighten (b : Bounds) (v : Nat) (x : ℚ)
    (hlo : b.lower v ≤ x) (hup : x ≤ b.upper v) (hfrac : (⌊x⌋ : ℚ) ≠ x) :
    ((∀ w, (branchLeft b v x).lower w = b.lower w) ∧
     (∀ w, w ≠ v → (branchLeft b v x).upper w = b.upper w) ∧
     (branchLeft b v x).upper v < b.upper v) ∧
    ((∀ w, (branchRight b v x).upper w = b.upper w) ∧
     (∀ w, w ≠ v → (branchRight b v x).lower w = b.lower w) ∧
     b.lower v < (branchRight b v x).lower v) := by
  obtain ⟨hfl, hcl⟩ := floor_lt_lt_ceil x hfrac
  refine ⟨⟨fun w => rfl, fun w hw => ?_, ?_⟩, ⟨fun w => rfl, fun w hw => ?_, ?_⟩⟩
  · simp only [branchLeft]
    exact Function.update_noteq hw _ _
  · simp only [branchLeft, Function.update_same]
    linarith
  · simp only [branchRight]
    exact Function.update_noteq hw _ _
  · simp only [branchRight, Function.update_same]
    linarith

/-- Witness for C5 at the spec scenario: bounds [0,5], fractional value 2.7. -/
theorem c5_children_strictly_tighten_witness :
    (exRootBounds.lower 1 ≤ (27/10 : ℚ) ∧ (27/10 : ℚ) ≤ exRootBounds.upper 1 ∧
      (⌊(27/10 : ℚ)⌋ : ℚ) ≠ 27/10) ∧
    (((∀ w, (branchLeft exRootBounds 1 (27/10)).lower w = exRootBounds.lower w) ∧
      (∀ w, w ≠ 1 → (branchLeft exRootBounds 1 (27/10)).upper w = exRootBounds.upper w) ∧
      (branchLeft exRootBounds 1 (27/10)).upper 1 < exRootBounds.upper 1) ∧
     ((∀ w, (branchRight exRootBounds 1 (27/10)).upper w = exRootBounds.upper w) ∧
      (∀ w, w ≠ 1 → (branchRight exRootBounds 1 (27/10)).lower w = exRootBounds.lower w) ∧
      exRootBounds.lower 1 < (branchRight exRootBounds 1 (27/10)).lower 1)) :=
  ⟨⟨by norm_num [exRootBounds], by norm_num [exRootBounds], by norm_num⟩,
   c5_children_strictly_tighten exRootBounds 1 (27/10)
     (by norm_num [exRootBounds]) (by norm_num [exRootBounds]) (by norm_num)⟩

/-- C3: when at least one integer variable has non-singleton bounds and a
relaxation value fractional beyond the tolerance, the Branching Selector
returns such a variable whose fractional distance from the nearest integer is
maximal among all such candidates, with ties broken by lowest variable
index. -/
theorem c3_most_fractional_selection (sol lo up : Nat → ℚ) (eps : ℚ)
    (integer_variables : List Nat)
    (hex : ∃ v ∈ integer_variables, eligibleVar sol lo up eps v) :
    ∃ v : Nat,
      chooseBranchingVariable sol lo up eps integer_variables = (v : Int) ∧
      v ∈ integer_variables ∧ eligibleVar sol lo up eps v ∧
      ∀ w ∈ integer_variables, eligibleVar sol lo up eps w →
        fracDist (sol w) < fracDist (sol v) ∨
          (fracDist (sol w) = fracDist (sol v) ∧ v ≤ w) := by
  obtain ⟨v, hv, hmem, helig, hall⟩ :=
    chooseAux_none sol lo up eps integer_variables hex
  refine ⟨v, ?_, hmem, helig, fun w hw he => hall w hw he⟩
  simp only [chooseBranchingVariable, hv]

/-- A concrete relaxation solution: variable 0 at 1/4, variable 1 at 5/2,
variable 2 at the integer 2. -/
def exSolution : Nat → ℚ :=
  fun i => if i = 0 then 1/4 else if i = 1 then 5/2 else 2

/-- Witness for C3: with bounds [0,5], tolerance 1/10 and candidates
[0, 1, 2], an eligible candidate exists (variable 1, distance 1/2) and the
selector picks a maximal-distance candidate. -/
theorem c3_most_fractional_selection_witness :
    (∃ v ∈ [0, 1, 2],
      eligibleVar exSolution exRootBounds.lower exRootBounds.upper (1/10) v) ∧
    (∃ v : Nat,
      chooseBranchingVariable exSolution exRootBounds.lower exRootBounds.upper
        (1/10) [0, 1, 2] = (v : Int) ∧
      v ∈ [0, 1, 2] ∧
      eligibleVar exSolution exRootBounds.lower exRootBounds.upper (1/10) v ∧
      ∀ w ∈ [0, 1, 2],
        eligibleVar exSolution exRootBounds.lower exRootBounds.upper (1/10) w →
          fracDist (exSolution w) < fracDist (exSolution v) ∨
            (fracDist (exSolution w) = fracDist (exSolution v) ∧ v ≤ w)) := by
  have h1 : eligibleVar exSolution exRootBounds.lower exRootBounds.upper (1/10) 1 := by
    constructor
    · norm_num [exRootBounds]
    · have hcl : ⌈(5/2 : ℚ)⌉ = 3 := by
        rw [Int.ceil_eq_iff] <;> norm_num
      norm_num [fracDist, exSolution, hcl]
  have hex : ∃ v ∈ [0, 1, 2],
      eligibleVar exSolution exRootBounds.lower exRootBounds.upper (1/10) v :=
    ⟨1, by norm_num, h1⟩
  exact ⟨hex, c3_most_fractional_selection exSolution exRootBounds.lower
    exRootBounds.upper (1/10) [0, 1, 2] hex⟩

/-- C7: in every store built by root creation and child creation, the root's
level is 0, a child's level is its parent's level plus one, and every node's
level equals its number of ancestors. -/
theorem c7_level_equals_ancestors (s : List MipNode) (hs : Built s) :
    (∀ nd, s[0]? = some nd → nd.level = 0) ∧
    (∀ p par, s[p]? = some par →
      ∀ nd, (addChild s p)[s.length]? = some nd → nd.level = par.level + 1) ∧
    (∀ i nd, s[i]? = some nd → nd.level = numAncestors s i) := by
  refine ⟨?_, ?_, built_level_eq_numAncestors s hs⟩
  · intro nd hnd
    have h := built_level_eq_numAncestors s hs 0 nd hnd
    rw [h]
    rfl
  · intro p par hpar nd hnd
    rw [addChild_eq s p par hpar, List.getElem?_concat_length] at hnd
    cases hnd
    rfl

/-- A concrete built store: root, a child of the root, and a grandchild. -/
def exStore : List MipNode := addChild (addChild rootStore 0) 1

/-- The concrete store is built. -/
theorem exStore_built : Built exStore :=
  Built.child (addChild rootStore 0) 1 (by norm_num [addChild, rootStore])
    (Built.child rootStore 0 (by norm_num [rootStore]) Built.root)

/-- Witness for C7 at the concrete three-node store. -/
theorem c7_level_equals_ancestors_witness :
    Built exStore ∧
    ((∀ nd, exStore[0]? = some nd → nd.level = 0) ∧
     (∀ p par, exStore[p]? = some par →
       ∀ nd, (addChild exStore p)[exStore.length]? = some nd →
         nd.level = par.level + 1) ∧
     (∀ i nd, exStore[i]? = some nd → nd.level = numAncestors exStore i)) :=
  ⟨exStore_built, c7_level_equals_ancestors exStore exStore_built⟩

end HiGHS
